import Mathlib

/-!
Verification development for the RAW→SILVER→GOLD CSV pipeline
(src/app/pipeline_pg.py).

The Python source is shallowly embedded: pure functions become Lean
functions, the per-stage database loops become explicit state-passing
functions, and code paths that can raise an uncaught Python exception
return values in the Except monad.  Machine-level details that no claim
depends on (connection handling, SQL text, timestamps) are not modelled.
-/

deriving instance DecidableEq for Except

namespace PipelinePG

/-! ## Python Decimal values

Model of the values of Python's decimal.Decimal that the pipeline can
construct: finite values are a sign, a coefficient (a natural number,
the digit string) and an exponent, so that the numeric value is
±coeff·10^exp; NaN, sNaN and ±Infinity are separate constructors.
-/

inductive PyDec where
  | finite (neg : Bool) (coeff : Nat) (exp : Int)
  | nan
  | snan
  | inf (neg : Bool)
deriving DecidableEq

def digitVal (c : Char) : Nat := c.toNat - ('0').toNat

def digitsToNat (l : List Char) : Nat := l.foldl (fun a c => a * 10 + digitVal c) 0

/-- Python str.strip(): remove leading and trailing whitespace.
Implemented over the character list (the core String.trim is
extensionally the same on the ASCII whitespace the data can contain). -/
def pyStripChars (l : List Char) : List Char :=
  ((l.dropWhile Char.isWhitespace).reverse.dropWhile Char.isWhitespace).reverse

def pyStrip (s : String) : String := String.mk (pyStripChars s.toList)

def lowerChars (l : List Char) : List Char := l.map Char.toLower

/-- Exponent part of a decimal numeric string: empty, or an indicator
e/E followed by an optionally signed nonempty digit string
(CPython decimal grammar, exponent-part). -/
def parseExpPart : List Char → Option Int
  | [] => some 0
  | c :: rest =>
    if c = 'e' ∨ c = 'E' then
      match rest with
      | '+' :: ds => if ds ≠ [] ∧ ds.all Char.isDigit then some ((digitsToNat ds : Int)) else none
      | '-' :: ds => if ds ≠ [] ∧ ds.all Char.isDigit then some (-(digitsToNat ds : Int)) else none
      | ds => if ds ≠ [] ∧ ds.all Char.isDigit then some ((digitsToNat ds : Int)) else none
    else none

/-- Unsigned numeric value of a decimal string: digits with an optional
decimal point (at least one digit overall) and an optional exponent
part.  Returns the coefficient together with the exponent (the written
exponent minus the number of fractional digits), as CPython's decimal
does. -/
def parseUnsignedDec (l : List Char) : Option (Nat × Int) :=
  let ip := l.takeWhile Char.isDigit
  let r1 := l.dropWhile Char.isDigit
  match r1 with
  | '.' :: r2 =>
    let fp := r2.takeWhile Char.isDigit
    let r3 := r2.dropWhile Char.isDigit
    if ip.isEmpty ∧ fp.isEmpty then none
    else (parseExpPart r3).map (fun ev => (digitsToNat (ip ++ fp), ev - (fp.length : Int)))
  | _ =>
    if ip.isEmpty then none
    else (parseExpPart r1).map (fun ev => (digitsToNat ip, ev))

def isNanBody (s kw : List Char) : Bool :=
  kw.isPrefixOf s && (s.drop kw.length).all Char.isDigit

/-- Decimal(text): the CPython decimal numeric-string grammar.
Leading/trailing whitespace is stripped (the callers have already
stripped it; Decimal strips again); an optional sign is followed either
by a case-insensitive infinity or (s)NaN literal (NaN may carry a digit
payload) or by an unsigned numeric value.  A failure models the
InvalidOperation the constructor raises. -/
def parseDecimal (s : String) : Option PyDec :=
  match pyStripChars s.toList with
  | [] => none
  | l =>
    let sb : Bool × List Char :=
      match l with
      | '+' :: r => (false, r)
      | '-' :: r => (true, r)
      | r => (false, r)
    let low := lowerChars sb.2
    if low = ['i', 'n', 'f'] ∨ low = ['i', 'n', 'f', 'i', 'n', 'i', 't', 'y']
    then some (PyDec.inf sb.1)
    else if isNanBody low ['n', 'a', 'n'] then some PyDec.nan
    else if isNanBody low ['s', 'n', 'a', 'n'] then some PyDec.snan
    else (parseUnsignedDec sb.2).map (fun ce => PyDec.finite sb.1 ce.1 ce.2)

/-- Half-up division of a coefficient: drop d-sized remainder, rounding
ties away from zero (the sign is carried separately, so rounding the
magnitude up is ROUND_HALF_UP). -/
def roundHalfUpDiv (c d : Nat) : Nat :=
  c / d + (if d ≤ c % d * 2 then 1 else 0)

/-- value.quantize(Decimal("0.01"), rounding=ROUND_HALF_UP) under the
default context (precision 28, InvalidOperation trapped).  Quantizing a
quiet NaN propagates the NaN; quantizing a signaling NaN or an infinity
raises InvalidOperation, as does a result whose coefficient would carry
more digits than the precision (coeff ≥ 10^28 at exponent -2). -/
def quantizeTwoPlaces : PyDec → Except Unit PyDec
  | PyDec.nan => Except.ok PyDec.nan
  | PyDec.snan => Except.error ()
  | PyDec.inf _ => Except.error ()
  | PyDec.finite neg c e =>
    let c2 : Nat :=
      if -2 ≤ e then c * 10 ^ (e + 2).toNat
      else roundHalfUpDiv c (10 ^ (-(e + 2)).toNat)
    if c2 < 10 ^ 28 then Except.ok (PyDec.finite neg c2 (-2)) else Except.error ()

/-- Decimal("0.00"), the fallback amount. -/
def decZero00 : PyDec := PyDec.finite false 0 (-2)

/-- coerce_price (pipeline_pg.py:174).  The Decimal(text) construction
is guarded by try/except InvalidOperation, but the final quantize call
is outside the try block: an exception it raises escapes, which the
Except.error result models. -/
def coerce_price (v : Option String) : Except Unit (PyDec × Bool) :=
  match v with
  | none => Except.ok (decZero00, true)
  | some s =>
    let text := pyStrip s
    if text = "" then Except.ok (decZero00, true)
    else
      match parseDecimal text with
      | none => Except.ok (decZero00, true)
      | some d => (quantizeTwoPlaces d).map (fun q => (q, false))

def intOfSign (neg : Bool) (n : Nat) : Int := if neg then -(n : Int) else (n : Int)

/-- coerce_user_id (pipeline_pg.py:187).  int(decimal_value) truncates a
finite value toward zero and raises ValueError/OverflowError on NaN or
infinity, both caught and mapped to the (0, True) fallback.  The flag
is decimal_value != Decimal(integral), i.e. whether a nonzero
fractional part was dropped.  The returned Decimal(integral) is
modelled as the integer itself. -/
def coerce_user_id (v : Option String) : Int × Bool :=
  match v with
  | none => (0, true)
  | some s =>
    let text := pyStrip s
    if text = "" then (0, true)
    else
      match parseDecimal text with
      | none => (0, true)
      | some (PyDec.finite neg c e) =>
        if 0 ≤ e then (intOfSign neg (c * 10 ^ e.toNat), false)
        else (intOfSign neg (c / 10 ^ (-e).toNat), decide (c % 10 ^ (-e).toNat ≠ 0))
      | some _ => (0, true)

/-- Numeric value of a finite Decimal, as a rational. -/
def decValQ (neg : Bool) (c : Nat) (e : Int) : ℚ :=
  (if neg then -1 else 1) * (c : ℚ) * (10 : ℚ) ^ e

/-- Truncation toward zero of a rational: the semantics of Python's
int() on a finite Decimal. -/
def ratTrunc (q : ℚ) : Int := if 0 ≤ q then ⌊q⌋ else ⌈q⌉

/-! ## Python dates

coerce_date keeps only the date component of whatever parse succeeds,
so the parsers below are modelled as returning the date directly (the
.date() projection never converts time zones). -/

structure PyDate where
  year : Nat
  month : Nat
  day : Nat
deriving DecidableEq

def epochDate : PyDate := ⟨1970, 1, 1⟩

def isLeapYear (y : Nat) : Bool :=
  (y % 4 == 0) && (y % 100 != 0 || y % 400 == 0)

def daysInMonth (y m : Nat) : Nat :=
  if m = 2 then (if isLeapYear y then 29 else 28)
  else if m = 4 ∨ m = 6 ∨ m = 9 ∨ m = 11 then 30
  else 31

/-- datetime's constructor validity check (MINYEAR=1, MAXYEAR=9999). -/
def validYMD (y m d : Nat) : Bool :=
  decide (1 ≤ y) && decide (y ≤ 9999) && decide (1 ≤ m) && decide (m ≤ 12) &&
  decide (1 ≤ d) && decide (d ≤ daysInMonth y m)

def parse2Digits : List Char → Option (Nat × List Char)
  | a :: b :: r =>
    if a.isDigit && b.isDigit then some (digitVal a * 10 + digitVal b, r) else none
  | _ => none

def parse4Digits : List Char → Option (Nat × List Char)
  | a :: b :: c :: d :: r =>
    if a.isDigit && b.isDigit && c.isDigit && d.isDigit
    then some (digitsToNat [a, b, c, d], r) else none
  | _ => none

/-- Fractional-seconds tail accepted by datetime.fromisoformat after a
decimal point: one to six digits (CPython 3.11+; 3.10 demands exactly
three or six, a difference no claim depends on). Returns the rest. -/
def isoFracTail (l : List Char) : Option (List Char) :=
  let ds := l.takeWhile Char.isDigit
  if 1 ≤ ds.length ∧ ds.length ≤ 6 then some (l.drop ds.length) else none

/-- UTC-offset tail of an ISO time: empty, or ±HH:MM optionally
followed by :SS.  Offsets must stay under one day. -/
def isoOffsetTail : List Char → Bool
  | [] => true
  | c :: r =>
    (c == '+' || c == '-') &&
    (match parse2Digits r with
     | some (hh, r1) =>
       decide (hh ≤ 23) &&
       (match r1 with
        | ':' :: r2 =>
          (match parse2Digits r2 with
           | some (mm, r3) =>
             decide (mm ≤ 59) &&
             (match r3 with
              | [] => true
              | ':' :: r4 =>
                (match parse2Digits r4 with
                 | some (ss, r5) => decide (ss ≤ 59) && r5.isEmpty
                 | none => false)
              | _ => false)
           | none => false)
        | _ => false)
     | none => false)

/-- Time-of-day tail of an ISO string: HH[:MM[:SS[.frac]]] followed by
an optional UTC offset. -/
def isoTimeTail (l : List Char) : Bool :=
  match parse2Digits l with
  | none => false
  | some (hh, r) =>
    decide (hh ≤ 23) &&
    (match r with
     | ':' :: r1 =>
       (match parse2Digits r1 with
        | none => false
        | some (mm, r2) =>
          decide (mm ≤ 59) &&
          (match r2 with
           | ':' :: r3 =>
             (match parse2Digits r3 with
              | none => false
              | some (ss, r4) =>
                decide (ss ≤ 59) &&
                (match r4 with
                 | '.' :: r5 =>
                   (match isoFracTail r5 with
                    | some r6 => isoOffsetTail r6
                    | none => false)
                 | _ => isoOffsetTail r4))
           | _ => isoOffsetTail r2))
     | _ => isoOffsetTail r)

/-- datetime.fromisoformat, restricted to its date component: a
zero-padded YYYY-MM-DD date, optionally followed by a single separator
character of any kind and a time-of-day with optional fraction and UTC
offset.  This is the common core of the 3.10 and 3.11+ accepted
grammars; exotic 3.11 forms (basic format without dashes, week dates)
are not modelled, no claim depends on them.  An invalid month, day or
time makes the parse fail, modelling the ValueError the caller
catches. -/
def fromisoformat (s : String) : Option PyDate :=
  match parse4Digits s.toList with
  | none => none
  | some (y, r) =>
    match r with
    | '-' :: r1 =>
      (match parse2Digits r1 with
       | none => none
       | some (m, r2) =>
         match r2 with
         | '-' :: r3 =>
           (match parse2Digits r3 with
            | none => none
            | some (d, r4) =>
              if validYMD y m d then
                match r4 with
                | [] => some ⟨y, m, d⟩
                | _ :: rt => if isoTimeTail rt then some ⟨y, m, d⟩ else none
              else none)
         | _ => none)
    | _ => none

/-- One- or two-digit numeric field of strptime: the generated regex
prefers the two-digit alternative when its value is admissible and
falls back to a single digit. -/
def parse1or2 (twoOk oneOk : Nat → Bool) : List Char → Option (Nat × List Char)
  | a :: b :: r =>
    if a.isDigit && b.isDigit && twoOk (digitVal a * 10 + digitVal b)
    then some (digitVal a * 10 + digitVal b, r)
    else if a.isDigit && oneOk (digitVal a) then some (digitVal a, b :: r)
    else none
  | a :: r =>
    if a.isDigit && oneOk (digitVal a) then some (digitVal a, r) else none
  | _ => none

def parseMonthTok : List Char → Option (Nat × List Char) :=
  parse1or2 (fun v => decide (1 ≤ v) && decide (v ≤ 12)) (fun v => decide (1 ≤ v))

def parseDayTok : List Char → Option (Nat × List Char) :=
  parse1or2 (fun v => decide (1 ≤ v) && decide (v ≤ 31)) (fun v => decide (1 ≤ v))

def parseHourTok : List Char → Option (Nat × List Char) :=
  parse1or2 (fun v => decide (v ≤ 23)) (fun _ => true)

def parseMinSecTok : List Char → Option (Nat × List Char) :=
  parse1or2 (fun v => decide (v ≤ 59)) (fun _ => true)

/-- A literal whitespace in a strptime format matches one or more
whitespace characters. -/
def skipWs1 : List Char → Option (List Char)
  | c :: r => if c.isWhitespace then some (r.dropWhile Char.isWhitespace) else none
  | [] => none

/-- datetime.strptime(text, "%Y-%m-%d %H:%M:%S") projected to its date:
%Y is exactly four digits; %m, %d, %H, %M, %S are one or two digits in
their ranges; the whole string must be consumed, and the datetime
constructor then validates the calendar date. -/
def strptimeYmdHms (s : String) : Option PyDate :=
  match parse4Digits s.toList with
  | none => none
  | some (y, r0) =>
    match r0 with
    | '-' :: r1 =>
      (match parseMonthTok r1 with
       | none => none
       | some (m, r2) =>
         match r2 with
         | '-' :: r3 =>
           (match parseDayTok r3 with
            | none => none
            | some (d, r4) =>
              match skipWs1 r4 with
              | none => none
              | some r5 =>
                match parseHourTok r5 with
                | none => none
                | some (_, r6) =>
                  match r6 with
                  | ':' :: r7 =>
                    (match parseMinSecTok r7 with
                     | none => none
                     | some (_, r8) =>
                       match r8 with
                       | ':' :: r9 =>
                         (match parseMinSecTok r9 with
                          | none => none
                          | some (_, r10) =>
                            if r10.isEmpty && validYMD y m d then some ⟨y, m, d⟩ else none)
                       | _ => none)
                  | _ => none)
         | _ => none)
    | _ => none

/-- datetime.strptime(text, "%Y-%m-%d") projected to its date. -/
def strptimeYmd (s : String) : Option PyDate :=
  match parse4Digits s.toList with
  | none => none
  | some (y, r0) =>
    match r0 with
    | '-' :: r1 =>
      (match parseMonthTok r1 with
       | none => none
       | some (m, r2) =>
         match r2 with
         | '-' :: r3 =>
           (match parseDayTok r3 with
            | none => none
            | some (d, r4) =>
              if r4.isEmpty && validYMD y m d then some ⟨y, m, d⟩ else none)
         | _ => none)
    | _ => none

/-- The trailing-Z substitution of coerce_date: a trailing literal "Z"
is replaced by "+00:00" before any parse attempt (the reassigned text
is also the one the strptime fallbacks see). -/
def zFix (t : String) : String :=
  match t.toList.getLast? with
  | some 'Z' => String.mk (t.toList.dropLast ++ ['+', '0', '0', ':', '0', '0'])
  | _ => t

/-- coerce_date (pipeline_pg.py:152): None or blank input gives the
epoch default flagged True; otherwise the primary ISO parse gives the
date flagged False; otherwise each strptime fallback format in order
gives its date flagged True; otherwise the epoch default flagged
True. -/
def coerce_date (v : Option String) : PyDate × Bool :=
  match v with
  | none => (epochDate, true)
  | some s =>
    let text := pyStrip s
    if text = "" then (epochDate, true)
    else
      let t2 := zFix text
      match fromisoformat t2 with
      | some d => (d, false)
      | none =>
        match strptimeYmdHms t2 with
        | some d => (d, true)
        | none =>
          match strptimeYmd t2 with
          | some d => (d, true)
          | none => (epochDate, true)

/-! ## The gold aggregate and the Aggregator (run_silver_to_gold)

A silver row is modelled by its (raw_id, price) pair; prices sit in a
NUMERIC(18,2) column, so they are represented exactly by their value in
cents (an integer).  The singleton gold.global_stats row carries the
running statistics and the watermark. -/

abbrev SRow := Nat × Int

structure GoldStats where
  total_count : Nat
  total_sum : Int
  min_price : Option Int
  max_price : Option Int
  last_silver_id : Nat
deriving DecidableEq

/-- The zero row installed by ensure_global_stats_row. -/
def initGold : GoldStats := ⟨0, 0, none, none, 0⟩

/-- The min CASE of the chunk UPDATE: NULL stored is replaced by the
batch value, NULL batch keeps the stored value, otherwise LEAST. -/
def mergeMin : Option Int → Option Int → Option Int
  | none, b => b
  | some a, none => some a
  | some a, some b => some (min a b)

def mergeMax : Option Int → Option Int → Option Int
  | none, b => b
  | some a, none => some a
  | some a, some b => some (max a b)

/-- Python min(list) / max(list) on a possibly-empty price list (the
loop only calls them on nonempty chunks). -/
def pyMin : List Int → Option Int
  | [] => none
  | x :: xs => some (xs.foldl min x)

def pyMax : List Int → Option Int
  | [] => none
  | x :: xs => some (xs.foldl max x)

/-- last_silver_id after a chunk UPDATE: the raw_id of the chunk's last
row (chunks are selected in ascending raw_id order). -/
def chunkLastId (g : GoldStats) (rows : List SRow) : Nat :=
  match rows.getLast? with
  | some r => r.1
  | none => g.last_silver_id

/-- The single UPDATE gold.global_stats statement executed per chunk
(pipeline_pg.py:503): counts and sums accumulate, min/max merge with
NULL as identity, and the watermark advances to the chunk's last id,
all in one transaction. -/
def mergeChunk (g : GoldStats) (rows : List SRow) : GoldStats :=
  { total_count := g.total_count + rows.length
    total_sum := g.total_sum + (rows.map Prod.snd).sum
    min_price := mergeMin g.min_price (pyMin (rows.map Prod.snd))
    max_price := mergeMax g.max_price (pyMax (rows.map Prod.snd))
    last_silver_id := chunkLastId g rows }

/-- The chunk SELECT: silver rows strictly beyond the stored watermark,
in ascending raw_id order (the list order of the model). -/
def pendingOf (w : Nat) (silver : List SRow) : List SRow :=
  silver.filter (fun r => decide (w < r.1))

/-- One silver row folded into the aggregate; mergeChunk on a chunk is
the left fold of this step (proved below). -/
def mergeRow (g : GoldStats) (r : SRow) : GoldStats :=
  { total_count := g.total_count + 1
    total_sum := g.total_sum + r.2
    min_price := mergeMin g.min_price (some r.2)
    max_price := mergeMax g.max_price (some r.2)
    last_silver_id := r.1 }

/-- run_silver_to_gold (pipeline_pg.py:469): repeatedly select the
chunk of rows beyond the watermark (bounded by the chunk size), merge
it and commit, until the selection is empty.  The state re-read each
iteration is the updated gold row. -/
def run_silver_to_gold (c : Nat) (silver : List SRow) (g : GoldStats) : GoldStats :=
  let sel := (pendingOf g.last_silver_id silver).take c
  if h : sel = [] then g
  else run_silver_to_gold c silver (mergeChunk g sel)
termination_by (pendingOf g.last_silver_id silver).length
decreasing_by
  have hr : sel.getLast h ∈ sel := List.getLast_mem h
  have hrp : sel.getLast h ∈ pendingOf g.last_silver_id silver := List.mem_of_mem_take hr
  have hgw : g.last_silver_id < (sel.getLast h).1 := by
    have := List.of_mem_filter hrp
    simpa using this
  have hW : (mergeChunk g sel).last_silver_id = (sel.getLast h).1 := by
    simp [mergeChunk, chunkLastId, List.getLast?_eq_getLast _ h]
  have hsub : List.Sublist (pendingOf (mergeChunk g sel).last_silver_id silver)
      (pendingOf g.last_silver_id silver) := by
    unfold pendingOf
    refine List.monotone_filter_right silver (fun a ha => ?_)
    simp only [decide_eq_true_iff] at ha ⊢
    omega
  have hne2 : pendingOf (mergeChunk g sel).last_silver_id silver ≠
      pendingOf g.last_silver_id silver := by
    intro hcontra
    have : sel.getLast h ∈ pendingOf (mergeChunk g sel).last_silver_id silver := by
      rw [hcontra]; exact hrp
    have := List.of_mem_filter this
    rw [hW] at this
    simp at this
  have hle := hsub.length_le
  rcases Nat.lt_or_ge (pendingOf (mergeChunk g sel).last_silver_id silver).length
      (pendingOf g.last_silver_id silver).length with hlt | hge
  · exact hlt
  · exact absurd (hsub.eq_of_length (Nat.le_antisymm hle hge)) hne2

/-- Strictly ascending raw_id order: how the rows of a table keyed by
raw_id are listed by an ORDER BY raw_id scan. -/
def StrictIds (l : List SRow) : Prop :=
  List.Pairwise (fun a b : SRow => a.1 < b.1) l

instance (l : List SRow) : Decidable (StrictIds l) :=
  inferInstanceAs (Decidable (List.Pairwise (fun a b : SRow => a.1 < b.1) l))

/-! ## The Transformer (run_raw_to_silver)

Raw rows carry the three raw text columns; the transform applies the
coercion rules and inserts typed rows keyed by raw_id.  Because
coerce_price can raise (see coerce_price above), the whole run is
Except-valued: an exception aborts the in-flight run. -/

structure RawRow where
  id : Nat
  source_file : String
  timestamp_raw : Option String
  price_raw : Option String
  user_id_raw : Option String
deriving DecidableEq

structure SilverEvent where
  raw_id : Nat
  event_date : PyDate
  price : PyDec
  user_id : Int
  dq_status : String
  source_file : String
deriving DecidableEq

/-- The per-row body of the transform loop (pipeline_pg.py:397):
coerce the three fields, mark the row COERCED if any field was
flagged. -/
def transformRow (r : RawRow) : Except Unit SilverEvent :=
  let dd := coerce_date r.timestamp_raw
  match coerce_price r.price_raw with
  | Except.error e => Except.error e
  | Except.ok pp =>
    let uu := coerce_user_id r.user_id_raw
    Except.ok
      { raw_id := r.id
        event_date := dd.1
        price := pp.1
        user_id := uu.1
        dq_status := if dd.2 ∨ pp.2 ∨ uu.2 then ("COERCED") else ("OK")
        source_file := r.source_file }

/-- Transform of one selected chunk: the payload of typed rows plus the
number of rows flagged COERCED. -/
def transformChunkRows : List RawRow → Except Unit (List SilverEvent × Nat)
  | [] => Except.ok ([], 0)
  | r :: rest =>
    match transformRow r with
    | Except.error e => Except.error e
    | Except.ok ev =>
      match transformChunkRows rest with
      | Except.error e => Except.error e
      | Except.ok pr =>
        Except.ok (ev :: pr.1, (if ev.dq_status = ("COERCED") then 1 else 0) + pr.2)

/-- The anti-join SELECT of the transformer: raw rows with no silver
row of the same raw_id, in ascending id order. -/
def pendingRawRows (raw : List RawRow) (silver : List SilverEvent) : List RawRow :=
  raw.filter (fun r => decide (¬ r.id ∈ silver.map SilverEvent.raw_id))

/-- A ledger append is modelled by the arguments handed to
record_load_log; the min/avg/max post-processing inside
record_load_log is internal to the ledger and outside every claim. -/
structure LedgerArgs where
  layer : String
  file_name : String
  records : Nat
  status : String
  details : Option String
deriving DecidableEq

theorem transformRow_id (r : RawRow) :
    ∀ ev, transformRow r = Except.ok ev → ev.raw_id = r.id := by
  intro ev h
  unfold transformRow at h
  rcases hp : coerce_price r.price_raw with e | pp <;> rw [hp] at h
  · cases h
  · cases h
    rfl

theorem transformChunkRows_ids :
    ∀ (rows : List RawRow) (pr : List SilverEvent × Nat),
      transformChunkRows rows = Except.ok pr →
      pr.1.map SilverEvent.raw_id = rows.map RawRow.id := by
  intro rows
  induction rows with
  | nil =>
    intro pr htr
    cases htr
    rfl
  | cons a t ih =>
    intro pr htr
    unfold transformChunkRows at htr
    rcases ha : transformRow a with e | ev <;> rw [ha] at htr
    · cases htr
    · rcases ht : transformChunkRows t with e | pr2 <;> rw [ht] at htr
      · cases htr
      · cases htr
        simp [ih pr2 ht, transformRow_id a ev ha]

/-- The chunked loop of run_raw_to_silver (pipeline_pg.py:380):
repeatedly select a chunk of untransformed raw rows in id order,
transform, insert and commit it, until the selection is empty.
Accumulates the processed-row and coerced-row counters. -/
def rtsLoop (c : Nat) (raw : List RawRow) (silver : List SilverEvent)
    (processed coerced : Nat) : Except Unit (List SilverEvent × Nat × Nat) :=
  let rows := (pendingRawRows raw silver).take c
  if h : rows = [] then Except.ok (silver, processed, coerced)
  else
    match htr : transformChunkRows rows with
    | Except.error e => Except.error e
    | Except.ok pr =>
      rtsLoop c raw (silver ++ pr.1) (processed + rows.length) (coerced + pr.2)
termination_by (pendingRawRows raw silver).length
decreasing_by
  have hidmap : pr.1.map SilverEvent.raw_id = rows.map RawRow.id :=
    transformChunkRows_ids rows pr htr
  rcases List.exists_mem_of_ne_nil rows h with ⟨r0, hr0rows⟩
  have hr0p : r0 ∈ pendingRawRows raw silver := List.mem_of_mem_take hr0rows
  have hr0in2 : r0.id ∈ (silver ++ pr.1).map SilverEvent.raw_id := by
    rw [List.map_append, List.mem_append, hidmap]
    exact Or.inr (List.mem_map_of_mem RawRow.id hr0rows)
  have hsub : List.Sublist (pendingRawRows raw (silver ++ pr.1))
      (pendingRawRows raw silver) := by
    unfold pendingRawRows
    refine List.monotone_filter_right raw (fun a ha => ?_)
    simp only [decide_eq_true_iff, List.map_append, List.mem_append] at ha ⊢
    exact fun hmem => ha (Or.inl hmem)
  have hne2 : pendingRawRows raw (silver ++ pr.1) ≠ pendingRawRows raw silver := by
    intro hcontra
    have : r0 ∈ pendingRawRows raw (silver ++ pr.1) := by rw [hcontra]; exact hr0p
    have := List.of_mem_filter this
    simp only [decide_eq_true_iff] at this
    exact this hr0in2
  have hle := hsub.length_le
  rcases Nat.lt_or_ge (pendingRawRows raw (silver ++ pr.1)).length
      (pendingRawRows raw silver).length with hlt | hge
  · exact hlt
  · exact absurd (hsub.eq_of_length (Nat.le_antisymm hle hge)) hne2

/-- run_raw_to_silver (pipeline_pg.py:373): the chunked loop followed
by the single ledger append summarizing the run (SUCCESS when at least
one row was processed, NO_NEW_ROWS otherwise, with the coerced-row
count in the details). -/
def run_raw_to_silver (c : Nat) (raw : List RawRow) (silver : List SilverEvent) :
    Except Unit (List SilverEvent × LedgerArgs) :=
  match rtsLoop c raw silver 0 0 with
  | Except.error e => Except.error e
  | Except.ok res =>
    Except.ok (res.1,
      { layer := ("silver")
        file_name := ("raw.events_raw")
        records := res.2.1
        status := if res.2.1 ≠ 0 then ("SUCCESS") else ("NO_NEW_ROWS")
        details := some (("Filas con coercion: ") ++ toString res.2.2) })

/-! ## The Ingestor (run_load_raw), one source file

A file is its optional header line plus its data rows (each a list of
fields, as csv.reader yields them).  The raw store is the set of
(source_file, row_number) keys already present; the ON CONFLICT DO
NOTHING insert persists exactly the well-shaped rows whose key is
absent.  Batching by chunk only groups inserts of rows with pairwise
distinct fresh keys, so it does not change what is inserted; the model
inserts row by row. -/

def EXPECTED_HEADER : List String := [("timestamp"), ("price"), ("user_id")]

inductive RawStatus where
  | success
  | noNewRows
  | emptyFile
  | skippedBadHeader
deriving DecidableEq

structure IngestOutcome where
  rowsRead : Nat
  inserted : Nat
  status : RawStatus
deriving DecidableEq

/-- Row numbers are assigned 1, 2, ... in file order to every physical
row, well-shaped or not. -/
def numberRows (rows : List (List String)) : List (Nat × List String) :=
  List.enumFrom 1 rows

/-- The per-file body of run_load_raw (pipeline_pg.py:285): a header
mismatch skips the file with zero inserts; otherwise rows with a wrong
column count are dropped (but still counted as read), the remaining
rows are inserted when their (file, row_number) key is new, and the
terminal status is chosen from the inserted count and the rows-read
count. -/
def ingestFile (fname : String) (header : Option (List String))
    (rows : List (List String)) (store : List (String × Nat)) : IngestOutcome :=
  if header ≠ some EXPECTED_HEADER then ⟨0, 0, RawStatus.skippedBadHeader⟩
  else
    let ins := (numberRows rows).filter
      (fun p => decide (p.2.length = 3) && decide (¬ (fname, p.1) ∈ store))
    { rowsRead := rows.length
      inserted := ins.length
      status :=
        if ins.length ≠ 0 then RawStatus.success
        else if rows.length ≠ 0 then RawStatus.noNewRows
        else RawStatus.emptyFile }

/-! ## run_load and the validation.csv substitution -/

/-- The exclusion-set substitution at the top of run_load
(pipeline_pg.py:597): for the raw/silver/all stages, an empty exclusion
set together with a default-like pattern is silently replaced by
{validation.csv}. -/
def effectiveExclude (stage pattern : String) (exclude : List String) : List String :=
  if (stage = ("raw") ∨ stage = ("silver") ∨ stage = ("all")) ∧ exclude = [] ∧
      (pattern = ("*.csv") ∨ pattern = ("*"))
  then [("validation.csv")] else exclude

/-- The file filtering at the top of run_load_raw (pipeline_pg.py:274):
only a nonempty exclusion set filters the discovered files. -/
def filesAfterExclude (files exclude : List String) : List String :=
  if exclude.isEmpty then files else files.filter (fun f => decide (¬ f ∈ exclude))

/-- The source files run_load hands to the raw ingestion stage: none
when the stage selection skips ingestion, otherwise the discovered
files filtered through the effective exclusion set. -/
def run_load_ingested (stage pattern : String) (exclude : List String)
    (files : List String) : Option (List String) :=
  if stage = ("raw") ∨ stage = ("silver") ∨ stage = ("all")
  then some (filesAfterExclude files (effectiveExclude stage pattern exclude))
  else none

/-! ## The pipeline transition system

For the aggregate-correctness invariant the three stages are modelled
as a transition relation over the whole store, at the granularity of a
single committed unit of work: one ingested batch of fresh rows, one
transformer chunk commit, one aggregator chunk commit.  A full stage
run is a sequence of such steps, so any interleaving of runs is a path
of this relation.  Rows are abstracted to their (raw_id, price) pair:
the raw row is represented by the typed price the coercion rules
produce for it, since the aggregate invariant does not depend on which
price that is. -/

structure PState where
  raw : List SRow
  silver : List SRow
  gold : GoldStats
deriving DecidableEq

def initState : PState := ⟨[], [], initGold⟩

/-- The transformer anti-join on abstracted rows. -/
def pendingSilver (raw silver : List SRow) : List SRow :=
  raw.filter (fun r => decide (¬ r.1 ∈ silver.map Prod.fst))

inductive StepRel : PState → PState → Prop
  | ingest (s : PState) (new : List SRow)
      (hids : List.Chain' (fun a b => a < b) (0 :: (s.raw ++ new).map Prod.fst)) :
      StepRel s ⟨s.raw ++ new, s.silver, s.gold⟩
  | transform (s : PState) (c : Nat) :
      StepRel s ⟨s.raw, s.silver ++ (pendingSilver s.raw s.silver).take c, s.gold⟩
  | aggregate (s : PState) (c : Nat)
      (hne : (pendingOf s.gold.last_silver_id s.silver).take c ≠ []) :
      StepRel s ⟨s.raw, s.silver,
        mergeChunk s.gold ((pendingOf s.gold.last_silver_id s.silver).take c)⟩

def Reachable (s : PState) : Prop := Relation.ReflTransGen StepRel initState s

/-- The statistics part of the gold row. -/
structure Stats where
  count : Nat
  sum : Int
  minP : Option Int
  maxP : Option Int
deriving DecidableEq

def statStep (st : Stats) (r : SRow) : Stats :=
  ⟨st.count + 1, st.sum + r.2, mergeMin st.minP (some r.2), mergeMax st.maxP (some r.2)⟩

/-- Full-scan statistics of a list of silver rows: count, sum, min and
max accumulated over every row. -/
def scanStats (l : List SRow) : Stats := l.foldl statStep ⟨0, 0, none, none⟩

def statsOfGold (g : GoldStats) : Stats :=
  ⟨g.total_count, g.total_sum, g.min_price, g.max_price⟩

/-- The silver rows already folded into the aggregate: those whose
raw_id is at most the stored watermark. -/
def foldedRows (s : PState) : List SRow :=
  s.silver.filter (fun r => decide (r.1 ≤ s.gold.last_silver_id))

/-- The inductive invariant: raw ids are positive and strictly
ascending, silver is an id-prefix of raw, the watermark is zero or a
silver id, and the gold statistics are the scan statistics of the
folded rows. -/
def Inv (s : PState) : Prop :=
  List.Chain' (fun a b => a < b) (0 :: s.raw.map Prod.fst) ∧
  s.silver = s.raw.take s.silver.length ∧
  (s.gold.last_silver_id = 0 ∨ s.gold.last_silver_id ∈ s.silver.map Prod.fst) ∧
  statsOfGold s.gold = scanStats (foldedRows s)

/-! ## Lemmas about the merge operations -/

theorem mergeMin_none (a : Option Int) : mergeMin a none = a := by
  cases a <;> rfl

theorem mergeMax_none (a : Option Int) : mergeMax a none = a := by
  cases a <;> rfl

theorem mergeMin_assoc (a b c : Option Int) :
    mergeMin (mergeMin a b) c = mergeMin a (mergeMin b c) := by
  cases a <;> cases b <;> cases c <;> simp [mergeMin, min_assoc]

theorem mergeMax_assoc (a b c : Option Int) :
    mergeMax (mergeMax a b) c = mergeMax a (mergeMax b c) := by
  cases a <;> cases b <;> cases c <;> simp [mergeMax, max_assoc]

theorem foldl_min_comm : ∀ (l : List Int) (a b : Int),
    l.foldl min (min a b) = min a (l.foldl min b)
  | [], _, _ => rfl
  | c :: t, a, b => by
    rw [List.foldl_cons, List.foldl_cons, min_assoc, foldl_min_comm t a (min b c)]

theorem foldl_max_comm : ∀ (l : List Int) (a b : Int),
    l.foldl max (max a b) = max a (l.foldl max b)
  | [], _, _ => rfl
  | c :: t, a, b => by
    rw [List.foldl_cons, List.foldl_cons, max_assoc, foldl_max_comm t a (max b c)]

theorem pyMin_cons (x : Int) (xs : List Int) :
    pyMin (x :: xs) = mergeMin (some x) (pyMin xs) := by
  cases xs with
  | nil => rfl
  | cons y ys => simp [pyMin, mergeMin, List.foldl_cons, foldl_min_comm]

theorem pyMax_cons (x : Int) (xs : List Int) :
    pyMax (x :: xs) = mergeMax (some x) (pyMax xs) := by
  cases xs with
  | nil => rfl
  | cons y ys => simp [pyMax, mergeMax, List.foldl_cons, foldl_max_comm]

theorem mergeChunk_nil (g : GoldStats) : mergeChunk g [] = g := by
  cases g
  simp [mergeChunk, chunkLastId, mergeMin_none, mergeMax_none, pyMin, pyMax]

theorem mergeChunk_cons (g : GoldStats) (r : SRow) (rows : List SRow) :
    mergeChunk g (r :: rows) = mergeChunk (mergeRow g r) rows := by
  cases rows with
  | nil =>
    cases g
    simp [mergeChunk, mergeRow, chunkLastId, pyMin, pyMax, mergeMin_none, mergeMax_none]
  | cons y ys =>
    cases g
    have hgl := List.getLast?_eq_getLast (y :: ys) (by simp)
    simp only [mergeChunk, mergeRow, List.map_cons, List.sum_cons, List.length_cons,
      pyMin_cons, pyMax_cons, mergeMin_assoc, mergeMax_assoc, chunkLastId,
      List.getLast?_cons_cons, hgl, GoldStats.mk.injEq]
    refine ⟨by omega, by ring, by trivial, by trivial, by trivial⟩

theorem mergeChunk_eq_foldl (rows : List SRow) : ∀ g, mergeChunk g rows = rows.foldl mergeRow g := by
  induction rows with
  | nil => intro g; exact mergeChunk_nil g
  | cons r t ih => intro g; rw [mergeChunk_cons, List.foldl_cons, ih]

/-! ## Lemmas about sorted row lists -/

theorem strictIds_last_max :
    ∀ {l : List SRow}, StrictIds l → ∀ (hne : l ≠ []) (a : SRow), a ∈ l → a.1 ≤ (l.getLast hne).1 := by
  intro l
  induction l with
  | nil => intro _ hne; cases hne rfl
  | cons x t ih =>
    intro hs hne a ha
    rcases List.pairwise_cons.mp hs with ⟨hx, ht⟩
    cases t with
    | nil =>
      have : a = x := by simpa using ha
      simp [this, List.getLast]
    | cons y t' =>
      rw [List.getLast_cons (by simp)]
      rcases List.mem_cons.mp ha with rfl | hat
      · have hlast : (y :: t').getLast (by simp) ∈ y :: t' := List.getLast_mem _
        exact Nat.le_of_lt (hx _ hlast)
      · exact ih ht (by simp) a hat

theorem strictIds_take_lt_drop {l : List SRow} (hs : StrictIds l) (c : Nat) :
    ∀ a ∈ l.take c, ∀ b ∈ l.drop c, a.1 < b.1 := by
  have h2 := hs
  rw [← List.take_append_drop c l] at h2
  exact (List.pairwise_append.mp h2).2.2

theorem strictIds_take {l : List SRow} (hs : StrictIds l) (c : Nat) : StrictIds (l.take c) :=
  List.Pairwise.sublist (List.take_sublist c l) hs

theorem strictIds_filter {l : List SRow} (hs : StrictIds l) (p : SRow → Bool) :
    StrictIds (l.filter p) :=
  List.Pairwise.sublist (List.filter_sublist l) hs

theorem pendingOf_append (w : Nat) (A B : List SRow) :
    pendingOf w (A ++ B) = pendingOf w A ++ pendingOf w B := by
  simp [pendingOf]

/-- Tightening the watermark filters the pending list further. -/
theorem pendingOf_of_lt {w w' : Nat} (hww : w < w') (silver : List SRow) :
    pendingOf w' silver = (pendingOf w silver).filter (fun r => decide (w' < r.1)) := by
  unfold pendingOf
  rw [List.filter_filter]
  refine (List.filter_congr ?_).symm
  intro a _
  rcases Nat.lt_or_ge w' a.1 with h1 | h1
  · simp [h1, Nat.lt_of_le_of_lt (Nat.le_of_lt hww) h1]
  · simp; omega

/-- In a sorted pending list, the rows beyond the last id of the
selected chunk are exactly the rows the chunk did not take. -/
theorem sorted_filter_gt_last_take {P : List SRow} (hs : StrictIds P) (c : Nat)
    (h : P.take c ≠ []) :
    P.filter (fun r => decide (((P.take c).getLast h).1 < r.1)) = P.drop c := by
  have hlastmem := List.getLast_mem h
  generalize hL : (P.take c).getLast h = L
  rw [hL] at hlastmem
  have h1 : (P.take c).filter (fun r => decide (L.1 < r.1)) = [] := by
    rw [List.filter_eq_nil_iff]
    intro a ha
    have hale : a.1 ≤ L.1 := by
      rw [← hL]
      exact strictIds_last_max (strictIds_take hs c) h a ha
    simp
    omega
  have h2 : (P.drop c).filter (fun r => decide (L.1 < r.1)) = P.drop c := by
    rw [List.filter_eq_self]
    intro a ha
    have := strictIds_take_lt_drop hs c L hlastmem a ha
    simpa using this
  calc P.filter (fun r => decide (L.1 < r.1))
      = (P.take c ++ P.drop c).filter (fun r => decide (L.1 < r.1)) := by
        rw [List.take_append_drop]
    _ = P.drop c := by rw [List.filter_append, h1, h2, List.nil_append]

/-- A sorted silver list splits into the rows at or below a watermark
followed by the rows beyond it. -/
theorem sorted_partition (w : Nat) :
    ∀ {l : List SRow}, StrictIds l → l = l.filter (fun r => decide (r.1 ≤ w)) ++ pendingOf w l := by
  intro l
  induction l with
  | nil => intro _; rfl
  | cons x t ih =>
    intro hs
    rcases List.pairwise_cons.mp hs with ⟨hx, ht⟩
    by_cases hle : x.1 ≤ w
    · have hnot : ¬ w < x.1 := by omega
      have h1 : (x :: t).filter (fun r => decide (r.1 ≤ w)) =
          x :: t.filter (fun r => decide (r.1 ≤ w)) := by
        rw [List.filter_cons]
        simp [hle]
      have h2 : pendingOf w (x :: t) = pendingOf w t := by
        unfold pendingOf
        rw [List.filter_cons]
        simp [hnot]
      rw [h1, h2, List.cons_append]
      exact congrArg (List.cons x) (ih ht)
    · have hw : w < x.1 := by omega
      have hA : (x :: t).filter (fun r => decide (r.1 ≤ w)) = [] := by
        rw [List.filter_eq_nil_iff]
        intro a ha
        rcases List.mem_cons.mp ha with rfl | hat
        · simp; omega
        · have := hx a hat
          simp
          omega
      have hB : pendingOf w (x :: t) = x :: t := by
        unfold pendingOf
        rw [List.filter_eq_self]
        intro a ha
        rcases List.mem_cons.mp ha with rfl | hat
        · simp; omega
        · have := hx a hat
          simp
          omega
      rw [hA, hB, List.nil_append]

/-! ## Characterization of the Aggregator loop -/

theorem foldl_mergeRow_last :
    ∀ (l : List SRow) (g : GoldStats) (hne : l ≠ []),
      (l.foldl mergeRow g).last_silver_id = (l.getLast hne).1 := by
  intro l
  induction l with
  | nil => intro _ hne; cases hne rfl
  | cons x t ih =>
    intro g hne
    cases t with
    | nil => rfl
    | cons y t' =>
      rw [List.foldl_cons, ih (mergeRow g x) (by simp)]
      rfl

/-- Running the Aggregator to completion folds exactly the pending rows
beyond the current watermark, in order, whatever positive chunk size is
used. -/
theorem run_silver_to_gold_eq_foldl (c : Nat) (hc : 0 < c) (silver : List SRow)
    (hs : StrictIds silver) :
    ∀ g, run_silver_to_gold c silver g = (pendingOf g.last_silver_id silver).foldl mergeRow g := by
  suffices aux : ∀ (n : Nat) (g : GoldStats), (pendingOf g.last_silver_id silver).length ≤ n →
      run_silver_to_gold c silver g = (pendingOf g.last_silver_id silver).foldl mergeRow g by
    intro g
    exact aux _ g (Nat.le_refl _)
  intro n
  induction n with
  | zero =>
    intro g hlen
    have hp : pendingOf g.last_silver_id silver = [] :=
      List.eq_nil_of_length_eq_zero (Nat.le_zero.mp hlen)
    rw [run_silver_to_gold]
    simp [hp]
  | succ n ih =>
    intro g hlen
    rw [run_silver_to_gold]
    by_cases hsel : (pendingOf g.last_silver_id silver).take c = []
    · rw [dif_pos hsel]
      have hp : pendingOf g.last_silver_id silver = [] := by
        rcases List.take_eq_nil_iff.mp hsel with hc0 | hnil
        · omega
        · exact hnil
      rw [hp]
      rfl
    · rw [dif_neg hsel]
      have hsP : StrictIds (pendingOf g.last_silver_id silver) := strictIds_filter hs _
      have hLmem : ((pendingOf g.last_silver_id silver).take c).getLast hsel ∈
          pendingOf g.last_silver_id silver :=
        List.mem_of_mem_take (List.getLast_mem hsel)
      have hgw : g.last_silver_id <
          (((pendingOf g.last_silver_id silver).take c).getLast hsel).1 := by
        have := List.of_mem_filter hLmem
        simpa using this
      have hW : (mergeChunk g ((pendingOf g.last_silver_id silver).take c)).last_silver_id =
          (((pendingOf g.last_silver_id silver).take c).getLast hsel).1 := by
        simp [mergeChunk, chunkLastId, List.getLast?_eq_getLast _ hsel]
      have hpend' : pendingOf
          (mergeChunk g ((pendingOf g.last_silver_id silver).take c)).last_silver_id silver =
          (pendingOf g.last_silver_id silver).drop c := by
        rw [hW, pendingOf_of_lt hgw silver, sorted_filter_gt_last_take hsP c hsel]
      have hPne : pendingOf g.last_silver_id silver ≠ [] := by
        intro hcontra
        rw [hcontra] at hsel
        simp at hsel
      have hlen' : (pendingOf
          (mergeChunk g ((pendingOf g.last_silver_id silver).take c)).last_silver_id
          silver).length ≤ n := by
        rw [hpend', List.length_drop]
        have h1 : 1 ≤ (pendingOf g.last_silver_id silver).length :=
          List.length_pos.mpr hPne
        omega
      rw [ih _ hlen', hpend', mergeChunk_eq_foldl, ← List.foldl_append,
        List.take_append_drop]

/-! ## Claims C2 and C3 -/

/-- C3: after an Aggregator run over a silver store listed in ascending
raw_id order with a positive chunk size, if at least one typed row was
folded then the stored watermark equals the raw_id of the last (hence
maximum) pending row, and every folded row's id is at most the new
watermark; a run that folds nothing leaves the gold row unchanged; and
the watermark never decreases across a run. -/
theorem c3_watermark_monotonic (c : Nat) (hc : 0 < c) (silver : List SRow)
    (hs : StrictIds silver) (g : GoldStats) :
    (∀ hne : pendingOf g.last_silver_id silver ≠ [],
      (run_silver_to_gold c silver g).last_silver_id =
        ((pendingOf g.last_silver_id silver).getLast hne).1 ∧
      ∀ r ∈ pendingOf g.last_silver_id silver,
        r.1 ≤ (run_silver_to_gold c silver g).last_silver_id) ∧
    (pendingOf g.last_silver_id silver = [] → run_silver_to_gold c silver g = g) ∧
    g.last_silver_id ≤ (run_silver_to_gold c silver g).last_silver_id := by
  have hchar := run_silver_to_gold_eq_foldl c hc silver hs g
  have hsP : StrictIds (pendingOf g.last_silver_id silver) := strictIds_filter hs _
  refine ⟨?_, ?_, ?_⟩
  · intro hne
    have h1 : (run_silver_to_gold c silver g).last_silver_id =
        ((pendingOf g.last_silver_id silver).getLast hne).1 := by
      rw [hchar]
      exact foldl_mergeRow_last _ g hne
    refine ⟨h1, ?_⟩
    intro r hr
    rw [h1]
    exact strictIds_last_max hsP hne r hr
  · intro hP
    rw [hchar, hP]
    rfl
  · by_cases hP : pendingOf g.last_silver_id silver = []
    · rw [hchar, hP]
      exact Nat.le_refl _
    · rw [hchar, foldl_mergeRow_last _ g hP]
      have hmem := List.getLast_mem hP
      have := List.of_mem_filter hmem
      simp only [decide_eq_true_iff] at this
      exact Nat.le_of_lt this

/-- C3 witness: a concrete sorted store with two pending rows, chunk
size 1. -/
theorem c3_watermark_monotonic_witness :
    (run_silver_to_gold 1 [(1, 5), (3, 2)] initGold).last_silver_id =
      ((pendingOf initGold.last_silver_id [(1, 5), (3, 2)]).getLast (by decide)).1 ∧
    initGold.last_silver_id ≤ (run_silver_to_gold 1 [(1, 5), (3, 2)] initGold).last_silver_id := by
  have h := c3_watermark_monotonic 1 (by decide) [(1, 5), (3, 2)] (by decide) initGold
  exact ⟨(h.1 (by decide)).1, h.2.2⟩

/-- C2: the Aggregator's final statistics and watermark do not depend
on the (positive) chunk size, nor on whether the typed rows were folded
in one run over the whole store or split into a run over an earlier
prefix of the store followed by a run over the grown store, from any
initial aggregate state. -/
theorem c2_chunk_size_independent (c₁ c₂ c₃ : Nat) (h₁ : 0 < c₁) (h₂ : 0 < c₂)
    (h₃ : 0 < c₃) (S₁ S₂ : List SRow) (hs : StrictIds (S₁ ++ S₂)) (g : GoldStats) :
    run_silver_to_gold c₁ (S₁ ++ S₂) g = run_silver_to_gold c₂ (S₁ ++ S₂) g ∧
    run_silver_to_gold c₂ (S₁ ++ S₂) (run_silver_to_gold c₁ S₁ g) =
      run_silver_to_gold c₃ (S₁ ++ S₂) g := by
  have hs1 : StrictIds S₁ := (List.pairwise_append.mp hs).1
  have hcross : ∀ a ∈ S₁, ∀ b ∈ S₂, a.1 < b.1 := (List.pairwise_append.mp hs).2.2
  constructor
  · rw [run_silver_to_gold_eq_foldl c₁ h₁ _ hs, run_silver_to_gold_eq_foldl c₂ h₂ _ hs]
  · have hg₁ : run_silver_to_gold c₁ S₁ g =
        (pendingOf g.last_silver_id S₁).foldl mergeRow g :=
      run_silver_to_gold_eq_foldl c₁ h₁ S₁ hs1 g
    by_cases hP : pendingOf g.last_silver_id S₁ = []
    · have hid : run_silver_to_gold c₁ S₁ g = g := by rw [hg₁, hP]; rfl
      rw [hid, run_silver_to_gold_eq_foldl c₂ h₂ _ hs, run_silver_to_gold_eq_foldl c₃ h₃ _ hs]
    · have hw₁ : (run_silver_to_gold c₁ S₁ g).last_silver_id =
          ((pendingOf g.last_silver_id S₁).getLast hP).1 := by
        rw [hg₁]
        exact foldl_mergeRow_last _ g hP
      have hLS₁ : (pendingOf g.last_silver_id S₁).getLast hP ∈ S₁ :=
        List.mem_of_mem_filter (List.getLast_mem hP)
      have hgwL : g.last_silver_id < ((pendingOf g.last_silver_id S₁).getLast hP).1 := by
        have := List.of_mem_filter (List.getLast_mem hP)
        simpa using this
      have hallS₁ : ∀ a ∈ S₁, a.1 ≤ ((pendingOf g.last_silver_id S₁).getLast hP).1 := by
        intro a ha
        by_cases haw : g.last_silver_id < a.1
        · exact strictIds_last_max (strictIds_filter hs1 _) hP a
            (List.mem_filter.mpr ⟨ha, by simpa using haw⟩)
        · omega
      have hpend1 : pendingOf (run_silver_to_gold c₁ S₁ g).last_silver_id S₁ = [] := by
        unfold pendingOf
        rw [List.filter_eq_nil_iff]
        intro a ha
        rw [hw₁]
        simp only [decide_eq_true_iff]
        have := hallS₁ a ha
        omega
      have hpend2 : pendingOf (run_silver_to_gold c₁ S₁ g).last_silver_id S₂ = S₂ := by
        unfold pendingOf
        rw [List.filter_eq_self]
        intro b hb
        rw [hw₁]
        simpa using hcross _ hLS₁ b hb
      have hpend2' : pendingOf g.last_silver_id S₂ = S₂ := by
        unfold pendingOf
        rw [List.filter_eq_self]
        intro b hb
        have := hcross _ hLS₁ b hb
        simp only [decide_eq_true_iff]
        omega
      rw [run_silver_to_gold_eq_foldl c₂ h₂ _ hs, run_silver_to_gold_eq_foldl c₃ h₃ _ hs,
        pendingOf_append, pendingOf_append, hpend1, hpend2, hpend2', hg₁,
        List.nil_append, ← List.foldl_append]

/-- C2 witness: ids 1–5 folded in a first run with chunk size 2, ids
6–8 folded by a second run with chunk size 3 over the grown store; the
result equals a single run with chunk size 1, and chunk sizes 1 and 3
agree on the whole store. -/
theorem c2_chunk_size_independent_witness :
    run_silver_to_gold 1 ([(1, 10), (2, 20), (3, 30), (4, 40), (5, 50)] ++
        [(6, 60), (7, 70), (8, 80)]) initGold =
      run_silver_to_gold 3 ([(1, 10), (2, 20), (3, 30), (4, 40), (5, 50)] ++
        [(6, 60), (7, 70), (8, 80)]) initGold ∧
    run_silver_to_gold 3 ([(1, 10), (2, 20), (3, 30), (4, 40), (5, 50)] ++
        [(6, 60), (7, 70), (8, 80)])
        (run_silver_to_gold 2 [(1, 10), (2, 20), (3, 30), (4, 40), (5, 50)] initGold) =
      run_silver_to_gold 1 ([(1, 10), (2, 20), (3, 30), (4, 40), (5, 50)] ++
        [(6, 60), (7, 70), (8, 80)]) initGold := by
  have h := c2_chunk_size_independent 2 3 1 (by decide) (by decide) (by decide)
    [(1, 10), (2, 20), (3, 30), (4, 40), (5, 50)] [(6, 60), (7, 70), (8, 80)]
    (by decide) initGold
  have h2 := c2_chunk_size_independent 1 3 1 (by decide) (by decide) (by decide)
    [(1, 10), (2, 20), (3, 30), (4, 40), (5, 50)] [(6, 60), (7, 70), (8, 80)]
    (by decide) initGold
  exact ⟨h2.1, h.2⟩

/-! ## The aggregate-correctness invariant (claim C1) -/

theorem statsOfGold_foldl (l : List SRow) :
    ∀ g, statsOfGold (l.foldl mergeRow g) = l.foldl statStep (statsOfGold g) := by
  induction l with
  | nil => intro g; rfl
  | cons r t ih => intro g; rw [List.foldl_cons, List.foldl_cons, ih]; rfl

theorem scanStats_append (A B : List SRow) :
    scanStats (A ++ B) = B.foldl statStep (scanStats A) := by
  simp [scanStats, List.foldl_append]

/-- Positive, strictly ascending ids, unpacked. -/
theorem chain0_pairwise {l : List SRow}
    (h : List.Chain' (fun a b => a < b) (0 :: l.map Prod.fst)) :
    StrictIds l ∧ ∀ r ∈ l, 0 < r.1 := by
  have hp : List.Pairwise (fun a b : Nat => a < b) (0 :: l.map Prod.fst) :=
    List.chain'_iff_pairwise.mp h
  rcases List.pairwise_cons.mp hp with ⟨h0, hl⟩
  refine ⟨List.pairwise_map.mp hl, ?_⟩
  intro r hr
  exact h0 _ (List.mem_map_of_mem _ hr)

/-- When silver is the k-prefix of a raw store with distinct ids, the
transformer anti-join selects exactly the remaining suffix. -/
theorem pendingSilver_take_eq_drop {raw : List SRow} (hs : StrictIds raw) (k : Nat) :
    pendingSilver raw (raw.take k) = raw.drop k := by
  unfold pendingSilver
  have h1 : (raw.take k).filter
      (fun r => decide (¬ r.1 ∈ (raw.take k).map Prod.fst)) = [] := by
    rw [List.filter_eq_nil_iff]
    intro a ha
    simp only [decide_eq_true_iff, not_not]
    exact List.mem_map_of_mem _ ha
  have h2 : (raw.drop k).filter
      (fun r => decide (¬ r.1 ∈ (raw.take k).map Prod.fst)) = raw.drop k := by
    rw [List.filter_eq_self]
    intro b hb
    simp only [decide_eq_true_iff, List.mem_map]
    rintro ⟨a, ha, hab⟩
    have := strictIds_take_lt_drop hs k a ha b hb
    omega
  calc raw.filter (fun r => decide (¬ r.1 ∈ (raw.take k).map Prod.fst))
      = (raw.take k ++ raw.drop k).filter
          (fun r => decide (¬ r.1 ∈ (raw.take k).map Prod.fst)) := by
        rw [List.take_append_drop]
    _ = raw.drop k := by rw [List.filter_append, h1, h2, List.nil_append]

/-- After one aggregator chunk the folded rows are the previously
folded rows followed by the chunk. -/
theorem foldedRows_after_chunk {silver : List SRow} (hs : StrictIds silver) (w c : Nat)
    (hne : (pendingOf w silver).take c ≠ []) :
    silver.filter (fun r => decide (r.1 ≤ (((pendingOf w silver).take c).getLast hne).1)) =
      silver.filter (fun r => decide (r.1 ≤ w)) ++ (pendingOf w silver).take c := by
  have hsP : StrictIds (pendingOf w silver) := strictIds_filter hs _
  have hLpend : ((pendingOf w silver).take c).getLast hne ∈ pendingOf w silver :=
    List.mem_of_mem_take (List.getLast_mem hne)
  have hwL : w < (((pendingOf w silver).take c).getLast hne).1 := by
    have := List.of_mem_filter hLpend
    simpa using this
  generalize hL : (((pendingOf w silver).take c).getLast hne).1 = L
  rw [hL] at hwL
  have hA : (silver.filter (fun r => decide (r.1 ≤ w))).filter
      (fun r => decide (r.1 ≤ L)) = silver.filter (fun r => decide (r.1 ≤ w)) := by
    rw [List.filter_eq_self]
    intro a ha
    have := List.of_mem_filter ha
    simp only [decide_eq_true_iff] at this ⊢
    omega
  have hTake : ((pendingOf w silver).take c).filter (fun r => decide (r.1 ≤ L)) =
      (pendingOf w silver).take c := by
    rw [List.filter_eq_self]
    intro a ha
    have := strictIds_last_max (strictIds_take hsP c) hne a ha
    rw [hL] at this
    simpa using this
  have hDrop : ((pendingOf w silver).drop c).filter (fun r => decide (r.1 ≤ L)) = [] := by
    rw [List.filter_eq_nil_iff]
    intro a ha
    have := strictIds_take_lt_drop hsP c _ (List.getLast_mem hne) a ha
    rw [hL] at this
    simp only [decide_eq_true_iff]
    omega
  calc silver.filter (fun r => decide (r.1 ≤ L))
      = (silver.filter (fun r => decide (r.1 ≤ w)) ++ pendingOf w silver).filter
          (fun r => decide (r.1 ≤ L)) := by
        conv_lhs => rw [sorted_partition w hs]
    _ = (silver.filter (fun r => decide (r.1 ≤ w)) ++
          ((pendingOf w silver).take c ++ (pendingOf w silver).drop c)).filter
          (fun r => decide (r.1 ≤ L)) := by
        rw [List.take_append_drop]
    _ = silver.filter (fun r => decide (r.1 ≤ w)) ++ (pendingOf w silver).take c := by
        rw [List.filter_append, List.filter_append, hA, hTake, hDrop, List.append_nil]

theorem inv_init : Inv initState := by
  refine ⟨?_, rfl, Or.inl rfl, rfl⟩
  exact List.chain'_singleton 0

/-- Every single committed unit of work of any stage preserves the
invariant. -/
theorem inv_step {s t : PState} (hI : Inv s) (hst : StepRel s t) : Inv t := by
  rcases hI with ⟨hchain, hpre, hwm, hstats⟩
  rcases chain0_pairwise hchain with ⟨hsraw, hpos⟩
  have hk : s.silver.length ≤ s.raw.length := by
    have h1 : s.silver.length = min s.silver.length s.raw.length := by
      conv_lhs => rw [hpre]
      rw [List.length_take]
    omega
  have hssilver : StrictIds s.silver := by
    rw [hpre]
    exact strictIds_take hsraw _
  cases hst with
  | ingest new hids =>
    refine ⟨hids, ?_, hwm, hstats⟩
    show s.silver = (s.raw ++ new).take s.silver.length
    rw [List.take_append_of_le_length hk]
    exact hpre
  | transform c =>
    have hps : pendingSilver s.raw s.silver = s.raw.drop s.silver.length := by
      conv_lhs => rw [hpre]
      exact pendingSilver_take_eq_drop hsraw _
    have hsilver' : s.silver ++ (pendingSilver s.raw s.silver).take c =
        s.raw.take (s.silver.length + c) := by
      rw [hps, List.take_add, ← hpre]
    have hnew_big : ∀ r ∈ (pendingSilver s.raw s.silver).take c,
        ¬ r.1 ≤ s.gold.last_silver_id := by
      intro r hr
      have hrdrop : r ∈ s.raw.drop s.silver.length := by
        rw [hps] at hr
        exact List.mem_of_mem_take hr
      rcases hwm with hw0 | hwmem
      · have : 0 < r.1 := hpos r (List.mem_of_mem_drop hrdrop)
        omega
      · rcases List.mem_map.mp hwmem with ⟨a, ha, haw⟩
        have ha' : a ∈ s.raw.take s.silver.length := by
          rw [← hpre]
          exact ha
        have := strictIds_take_lt_drop hsraw s.silver.length a ha' r hrdrop
        omega
    refine ⟨hchain, ?_, ?_, ?_⟩
    · show s.silver ++ (pendingSilver s.raw s.silver).take c =
        s.raw.take (s.silver ++ (pendingSilver s.raw s.silver).take c).length
      rw [hsilver']
      rw [List.length_take]
      rw [← List.take_take, List.take_length]
    · rcases hwm with hw0 | hwmem
      · exact Or.inl hw0
      · right
        rw [List.map_append]
        exact List.mem_append_left _ hwmem
    · show statsOfGold s.gold = scanStats (foldedRows
        ⟨s.raw, s.silver ++ (pendingSilver s.raw s.silver).take c, s.gold⟩)
      have hfr : foldedRows ⟨s.raw, s.silver ++ (pendingSilver s.raw s.silver).take c, s.gold⟩ =
          foldedRows s := by
        show (s.silver ++ (pendingSilver s.raw s.silver).take c).filter
            (fun r => decide (r.1 ≤ s.gold.last_silver_id)) = foldedRows s
        rw [List.filter_append]
        have : ((pendingSilver s.raw s.silver).take c).filter
            (fun r => decide (r.1 ≤ s.gold.last_silver_id)) = [] := by
          rw [List.filter_eq_nil_iff]
          intro a ha
          simpa using hnew_big a ha
        rw [this, List.append_nil]
        rfl
      rw [hfr]
      exact hstats
  | aggregate c hne =>
    have hW : (mergeChunk s.gold ((pendingOf s.gold.last_silver_id s.silver).take c)).last_silver_id =
        (((pendingOf s.gold.last_silver_id s.silver).take c).getLast hne).1 := by
      simp [mergeChunk, chunkLastId, List.getLast?_eq_getLast _ hne]
    refine ⟨hchain, hpre, ?_, ?_⟩
    · right
      rw [hW]
      have hmem : ((pendingOf s.gold.last_silver_id s.silver).take c).getLast hne ∈ s.silver :=
        List.mem_of_mem_filter (List.mem_of_mem_take (List.getLast_mem hne))
      exact List.mem_map_of_mem _ hmem
    · show statsOfGold (mergeChunk s.gold ((pendingOf s.gold.last_silver_id s.silver).take c)) =
        scanStats (s.silver.filter (fun r => decide (r.1 ≤
          (mergeChunk s.gold ((pendingOf s.gold.last_silver_id s.silver).take c)).last_silver_id)))
      have hfold := foldedRows_after_chunk hssilver s.gold.last_silver_id c hne
      have hgoal : s.silver.filter (fun r => decide (r.1 ≤
            (mergeChunk s.gold ((pendingOf s.gold.last_silver_id s.silver).take c)).last_silver_id)) =
          foldedRows s ++ (pendingOf s.gold.last_silver_id s.silver).take c := by
        calc s.silver.filter (fun r => decide (r.1 ≤
              (mergeChunk s.gold ((pendingOf s.gold.last_silver_id s.silver).take c)).last_silver_id))
            = s.silver.filter (fun r => decide (r.1 ≤
              (((pendingOf s.gold.last_silver_id s.silver).take c).getLast hne).1)) := by
              rw [hW]
          _ = foldedRows s ++ (pendingOf s.gold.last_silver_id s.silver).take c := hfold
      rw [hgoal, scanStats_append, mergeChunk_eq_foldl, statsOfGold_foldl, hstats]

theorem reachable_inv {s : PState} (h : Reachable s) : Inv s := by
  induction h with
  | refl => exact inv_init
  | tail _ hbc ih => exact inv_step ih hbc

/-- C1: in every state reachable by any interleaving of ingestion
batches, transformer chunk commits and aggregator chunk commits, the
gold statistics equal the full-scan statistics of the silver rows at or
below the stored watermark; and an aggregator run to completion (any
positive chunk size) from such a state leaves the gold statistics equal
to the full-scan statistics of the entire silver store. -/
theorem c1_aggregate_correct (s : PState) (h : Reachable s) :
    statsOfGold s.gold = scanStats (foldedRows s) ∧
    ∀ c : Nat, 0 < c →
      statsOfGold (run_silver_to_gold c s.silver s.gold) = scanStats s.silver := by
  have hI := reachable_inv h
  rcases hI with ⟨hchain, hpre, _, hstats⟩
  rcases chain0_pairwise hchain with ⟨hsraw, _⟩
  have hssilver : StrictIds s.silver := by
    rw [hpre]
    exact strictIds_take hsraw _
  refine ⟨hstats, ?_⟩
  intro c hc
  rw [run_silver_to_gold_eq_foldl c hc _ hssilver, statsOfGold_foldl, hstats,
    ← scanStats_append]
  congr 1
  exact (sorted_partition _ hssilver).symm

/-- C1 witness: ingest rows 1 and 2, transform them in one chunk, fold
them in one aggregator chunk; in the resulting concrete state the
invariant holds and a further aggregator run with chunk size 1 yields
the full-scan statistics. -/
theorem c1_aggregate_correct_witness :
    statsOfGold (⟨2, 8, some 3, some 5, 2⟩ : GoldStats) =
      scanStats (foldedRows ⟨[(1, 5), (2, 3)], [(1, 5), (2, 3)], ⟨2, 8, some 3, some 5, 2⟩⟩) ∧
    statsOfGold (run_silver_to_gold 1 [(1, 5), (2, 3)] ⟨2, 8, some 3, some 5, 2⟩) =
      scanStats [(1, 5), (2, 3)] := by
  have h1 : Reachable ⟨[(1, 5), (2, 3)], [], initGold⟩ :=
    Relation.ReflTransGen.single (StepRel.ingest initState [(1, 5), (2, 3)]
      (show List.Chain' (fun a b => a < b) [0, 1, 2] by simp [List.chain'_cons]))
  have h2 : Reachable ⟨[(1, 5), (2, 3)], [(1, 5), (2, 3)], initGold⟩ :=
    Relation.ReflTransGen.tail h1 (StepRel.transform ⟨[(1, 5), (2, 3)], [], initGold⟩ 2)
  have hr : Reachable ⟨[(1, 5), (2, 3)], [(1, 5), (2, 3)], ⟨2, 8, some 3, some 5, 2⟩⟩ :=
    Relation.ReflTransGen.tail h2
      (StepRel.aggregate ⟨[(1, 5), (2, 3)], [(1, 5), (2, 3)], initGold⟩ 2 (by decide))
  have h := c1_aggregate_correct ⟨[(1, 5), (2, 3)], [(1, 5), (2, 3)], ⟨2, 8, some 3, some 5, 2⟩⟩ hr
  exact ⟨h.1, h.2 1 (by decide)⟩

/-! ## Claims C4 and C5: the amount coercion -/

/-- C4 (code evaluated at the failing inputs): coerce_price raises an
uncaught InvalidOperation on "Inf" (quantizing an infinity) and on
"1E+30" (the quantized coefficient exceeds the context precision),
because the quantize call sits outside the try/except block; the same
inputs leave coerce_date and coerce_user_id returning their fallbacks
normally, as the claim demands of all three. -/
theorem c4_coerce_price_raises :
    coerce_price (some ("Inf")) = Except.error () ∧
    coerce_price (some ("1E+30")) = Except.error () ∧
    coerce_price (some ("sNaN")) = Except.error () ∧
    coerce_date (some ("Inf")) = (epochDate, true) ∧
    coerce_user_id (some ("Inf")) = (0, true) := by decide

/-- C5 counterexample: "1E+30" parses as a decimal, yet coerce_price
does not return it with the flag false — it raises, so the claim's
"for every input that parses as a decimal the flag is false" fails. -/
theorem c5_counterexample :
    (parseDecimal ("1E+30")).isSome = true ∧
    coerce_price (some ("1E+30")) = Except.error () := by decide

/-- C5 amended: "10.005" rounds half-up to 10.01 unflagged and "" gives
0.00 flagged; every empty or unparsable input gives 0.00 flagged; and
every input that parses as a decimal WHOSE QUANTIZATION TO TWO PLACES
SUCCEEDS (finite, within the context precision) yields the quantized
value with the flag false. -/
theorem c5_amended_price_rules :
    coerce_price (some ("10.005")) = Except.ok (PyDec.finite false 1001 (-2), false) ∧
    coerce_price (some ("")) = Except.ok (decZero00, true) ∧
    (∀ s : String, parseDecimal (pyStrip s) = none →
      coerce_price (some s) = Except.ok (decZero00, true)) ∧
    (∀ (s : String) (d q : PyDec), parseDecimal (pyStrip s) = some d →
      quantizeTwoPlaces d = Except.ok q →
      coerce_price (some s) = Except.ok (q, false)) := by
  refine ⟨by decide, by decide, ?_, ?_⟩
  · intro s hp
    simp only [coerce_price]
    by_cases hz : pyStrip s = ""
    · rw [if_pos hz]
    · rw [if_neg hz, hp]
  · intro s d q hp hq
    simp only [coerce_price]
    by_cases hz : pyStrip s = ""
    · rw [hz] at hp
      have hnone : parseDecimal ("") = (none : Option PyDec) := rfl
      rw [hnone] at hp
      cases hp
    · rw [if_neg hz, hp]
      show Except.map (fun q => (q, false)) (quantizeTwoPlaces d) = Except.ok (q, false)
      rw [hq]
      rfl

/-- C5 amended witness: an unparsable input and a parsable one. -/
theorem c5_amended_price_rules_witness :
    coerce_price (some ("abc")) = Except.ok (decZero00, true) ∧
    coerce_price (some ("2")) = Except.ok (PyDec.finite false 200 (-2), false) :=
  ⟨c5_amended_price_rules.2.2.1 ("abc") (by decide),
   c5_amended_price_rules.2.2.2 ("2") (PyDec.finite false 2 0) (PyDec.finite false 200 (-2))
     (by decide) (by decide)⟩

/-! ## Claim C6: the date coercion flag -/

/-- C6 counterexample: "2024-1-2" fails the primary ISO parse but
parses under the fallback format "%Y-%m-%d", and coerce_date flags it
COERCED (flag true) — the claim says a fallback-format parse returns
its date with the flag false. -/
theorem c6_counterexample :
    coerce_date (some ("2024-1-2")) = (⟨2024, 1, 2⟩, true) ∧
    strptimeYmd ("2024-1-2") = some ⟨2024, 1, 2⟩ ∧
    fromisoformat ("2024-1-2") = none := by decide

/-- C6 amended: the coerced flag is false exactly when the primary ISO
parse (after the trailing-Z substitution) succeeds on the stripped,
nonempty input; empty, unparsable AND fallback-format inputs are all
flagged true. -/
theorem c6_amended_date_flag (v : Option String) :
    (coerce_date v).2 = false ↔
      ∃ s, v = some s ∧ pyStrip s ≠ "" ∧ (fromisoformat (zFix (pyStrip s))).isSome = true := by
  cases v with
  | none =>
    simp [coerce_date]
  | some s =>
    simp only [coerce_date]
    by_cases hz : pyStrip s = ""
    · rw [if_pos hz]
      simp [hz]
    · rw [if_neg hz]
      rcases hiso : fromisoformat (zFix (pyStrip s)) with _ | d
      · rcases h1 : strptimeYmdHms (zFix (pyStrip s)) with _ | d1
        · rcases h2 : strptimeYmd (zFix (pyStrip s)) with _ | d2
          · simp [hiso, hz]
          · simp [hiso, hz]
        · simp [hiso, hz]
      · simp [hiso, hz]

/-- C6 amended witness: a primary-parse success has flag false. -/
theorem c6_amended_date_flag_witness :
    (coerce_date (some ("2024-01-02"))).2 = false :=
  (c6_amended_date_flag (some ("2024-01-02"))).mpr
    ⟨("2024-01-02"), rfl, by decide, by decide⟩

/-! ## Claim C7: the identifier coercion -/

theorem ratTrunc_intCast (i : ℤ) : ratTrunc ((i : ℚ)) = i := by
  unfold ratTrunc
  split
  · exact Int.floor_intCast i
  · exact Int.ceil_intCast i

theorem intOfSign_castQ (neg : Bool) (n : Nat) :
    ((intOfSign neg n : ℤ) : ℚ) = (if neg then -1 else 1) * (n : ℚ) := by
  unfold intOfSign
  split <;> push_cast <;> ring

theorem decValQ_nonneg_exp (neg : Bool) (c : Nat) {e : Int} (he : 0 ≤ e) :
    decValQ neg c e = ((intOfSign neg (c * 10 ^ e.toNat) : ℤ) : ℚ) := by
  obtain ⟨n, rfl⟩ : ∃ n : ℕ, e = (n : ℤ) := ⟨e.toNat, (Int.toNat_of_nonneg he).symm⟩
  rw [intOfSign_castQ]
  unfold decValQ
  rw [zpow_natCast, Int.toNat_natCast]
  push_cast
  ring

theorem floorQ_nat_div (c d : Nat) : ⌊((c : ℚ) / (d : ℚ))⌋ = ((c / d : ℕ) : ℤ) := by
  have h := Rat.floor_intCast_div_natCast (c : ℤ) d
  push_cast at h
  rw [h]
  exact (Int.ofNat_ediv c d).symm

theorem nat_div_exact_iff (c d : Nat) (hd : 0 < d) :
    ((c : ℚ) / (d : ℚ) = ((c / d : ℕ) : ℚ)) ↔ c % d = 0 := by
  have hdq : (d : ℚ) ≠ 0 := Nat.cast_ne_zero.mpr (Nat.pos_iff_ne_zero.mp hd)
  rw [div_eq_iff hdq]
  constructor
  · intro h
    have hc : c = c / d * d := by exact_mod_cast h
    have hdvd : d ∣ c := ⟨c / d, by rw [Nat.mul_comm]; exact hc⟩
    exact Nat.mod_eq_zero_of_dvd hdvd
  · intro h
    have hdvd : d ∣ c := Nat.dvd_of_mod_eq_zero h
    have hc : c / d * d = c := Nat.div_mul_cancel hdvd
    conv_lhs => rw [← hc]
    push_cast
    ring

/-- C7: coerce_user_id returns zero flagged for every empty or
unparsable-as-decimal input; for an input parsing as a finite decimal
it returns the truncation toward zero of the decimal's value, and the
flag is true exactly when that truncation changed the value. -/
theorem c7_user_id_truncation :
    coerce_user_id (some ("abc")) = (0, true) ∧
    (∀ s : String, parseDecimal (pyStrip s) = none → coerce_user_id (some s) = (0, true)) ∧
    (∀ (s : String) (neg : Bool) (c : Nat) (e : Int),
      parseDecimal (pyStrip s) = some (PyDec.finite neg c e) →
      coerce_user_id (some s) =
        (ratTrunc (decValQ neg c e),
         decide (decValQ neg c e ≠ ((ratTrunc (decValQ neg c e) : ℤ) : ℚ)))) := by
  refine ⟨by decide, ?_, ?_⟩
  · intro s hp
    simp only [coerce_user_id]
    by_cases hz : pyStrip s = ""
    · rw [if_pos hz]
    · rw [if_neg hz, hp]
  · intro s neg c e hp
    simp only [coerce_user_id]
    by_cases hz : pyStrip s = ""
    · rw [hz] at hp
      have hnone : parseDecimal ("") = (none : Option PyDec) := rfl
      rw [hnone] at hp
      cases hp
    rw [if_neg hz, hp]
    show (if 0 ≤ e then (intOfSign neg (c * 10 ^ e.toNat), false)
        else (intOfSign neg (c / 10 ^ (-e).toNat), decide (c % 10 ^ (-e).toNat ≠ 0))) =
      (ratTrunc (decValQ neg c e),
       decide (decValQ neg c e ≠ ((ratTrunc (decValQ neg c e) : ℤ) : ℚ)))
    by_cases he : 0 ≤ e
    · rw [if_pos he]
      have hval := decValQ_nonneg_exp neg c he
      rw [hval, ratTrunc_intCast]
      simp
    · rw [if_neg he]
      obtain ⟨k, rfl⟩ : ∃ k : ℕ, e = -((k : ℕ) : ℤ) := ⟨(-e).toNat, by omega⟩
      simp only [neg_neg, Int.toNat_natCast]
      have hd : 0 < 10 ^ k := Nat.pos_pow_of_pos _ (by omega)
      have hq0 : (0 : ℚ) ≤ (c : ℚ) / ((10 ^ k : ℕ) : ℚ) := by positivity
      have hfloor := floorQ_nat_div c (10 ^ k)
      have hiff := nat_div_exact_iff c (10 ^ k) hd
      have hcast : ((((c / 10 ^ k : ℕ) : ℤ)) : ℚ) = ((c / 10 ^ k : ℕ) : ℚ) := by
        norm_cast
      cases neg with
      | false =>
        have hVval : decValQ false c (-((k : ℕ) : ℤ)) = (c : ℚ) / ((10 ^ k : ℕ) : ℚ) := by
          unfold decValQ
          rw [zpow_neg, zpow_natCast, div_eq_mul_inv]
          push_cast
          norm_num
        have htr : ratTrunc (decValQ false c (-((k : ℕ) : ℤ))) = ((c / 10 ^ k : ℕ) : ℤ) := by
          unfold ratTrunc
          rw [hVval, if_pos hq0]
          exact hfloor
        simp only [Prod.mk.injEq]
        constructor
        · rw [htr]
          rfl
        · rw [decide_eq_decide, htr, hVval, hcast]
          exact (not_congr hiff).symm
      | true =>
        have hVval : decValQ true c (-((k : ℕ) : ℤ)) = -((c : ℚ) / ((10 ^ k : ℕ) : ℚ)) := by
          unfold decValQ
          rw [zpow_neg, zpow_natCast, div_eq_mul_inv]
          push_cast
          norm_num
        by_cases hq0z : (c : ℚ) / ((10 ^ k : ℕ) : ℚ) = 0
        · have hc0 : c = 0 := by
            have hdq : ((10 ^ k : ℕ) : ℚ) ≠ 0 :=
              Nat.cast_ne_zero.mpr (Nat.pos_iff_ne_zero.mp hd)
            have := (div_eq_zero_iff.mp hq0z).resolve_right hdq
            exact_mod_cast this
          subst hc0
          have hV0 : decValQ true 0 (-((k : ℕ) : ℤ)) = 0 := by
            rw [hVval, hq0z, neg_zero]
          rw [hV0]
          have htr0 : ratTrunc (0 : ℚ) = 0 := by
            unfold ratTrunc
            rw [if_pos le_rfl]
            exact Int.floor_zero
          rw [htr0]
          simp [intOfSign]
        · have hq0pos : 0 < (c : ℚ) / ((10 ^ k : ℕ) : ℚ) :=
            lt_of_le_of_ne hq0 (Ne.symm hq0z)
          have hVneg : decValQ true c (-((k : ℕ) : ℤ)) < 0 := by
            rw [hVval]
            exact neg_lt_zero.mpr hq0pos
          have htr : ratTrunc (decValQ true c (-((k : ℕ) : ℤ))) =
              -((c / 10 ^ k : ℕ) : ℤ) := by
            unfold ratTrunc
            rw [if_neg (by exact not_le.mpr hVneg), hVval, Int.ceil_neg, hfloor]
          simp only [Prod.mk.injEq]
          constructor
          · rw [htr]
            rfl
          · rw [decide_eq_decide, htr, hVval, Int.cast_neg, hcast]
            constructor
            · intro hne heq
              exact hne (hiff.mp (neg_inj.mp heq))
            · intro hne heq
              exact hne (congrArg Neg.neg (hiff.mpr heq))

/-- C7 witness: an unparsable identifier and a fractional one. -/
theorem c7_user_id_truncation_witness :
    coerce_user_id (some ("xyz")) = (0, true) ∧
    coerce_user_id (some ("7.5")) =
      (ratTrunc (decValQ false 75 (-1)),
       decide (decValQ false 75 (-1) ≠ ((ratTrunc (decValQ false 75 (-1)) : ℤ) : ℚ))) :=
  ⟨c7_user_id_truncation.2.1 ("xyz") (by decide),
   c7_user_id_truncation.2.2 ("7.5") false 75 (-1) (by decide)⟩

/-! ## Claim C8: the Ingestor terminal statuses -/

/-- C8 counterexample: a file whose only data row has the wrong column
count (so zero valid rows) against an empty store is recorded
NO_NEW_ROWS, not EMPTY_FILE, because the code keys EMPTY_FILE on zero
rows read, not on zero valid rows; and NO_NEW_ROWS here does not mean
every row was already present (the store is empty). -/
theorem c8_counterexample :
    ingestFile ("f.csv") (some EXPECTED_HEADER) [[("a"), ("b")]] [] =
      ⟨1, 0, RawStatus.noNewRows⟩ ∧
    (([[("a"), ("b")]] : List (List String)).filter
      (fun r => decide (r.length = 3))).length = 0 := by decide

/-- C8 amended: SKIPPED_BAD_HEADER iff the header mismatches (then zero
rows are inserted); with a matching header, SUCCESS iff at least one
row was newly persisted, NO_NEW_ROWS iff no row was newly persisted but
at least one row (of any shape) was read, and EMPTY_FILE iff the file
had no data rows at all. Exactly one status is recorded per file. -/
theorem c8_ingest_status (fname : String) (header : Option (List String))
    (rows : List (List String)) (store : List (String × Nat)) :
    ((ingestFile fname header rows store).status = RawStatus.skippedBadHeader ↔
      header ≠ some EXPECTED_HEADER) ∧
    (header ≠ some EXPECTED_HEADER → (ingestFile fname header rows store).inserted = 0) ∧
    (header = some EXPECTED_HEADER →
      (((ingestFile fname header rows store).status = RawStatus.success ↔
          1 ≤ (ingestFile fname header rows store).inserted) ∧
       ((ingestFile fname header rows store).status = RawStatus.noNewRows ↔
          (ingestFile fname header rows store).inserted = 0 ∧ 1 ≤ rows.length) ∧
       ((ingestFile fname header rows store).status = RawStatus.emptyFile ↔
          rows.length = 0))) := by
  by_cases hh : header = some EXPECTED_HEADER
  · have hh2 : ¬ header ≠ some EXPECTED_HEADER := by simp [hh]
    have hout : ingestFile fname header rows store =
        { rowsRead := rows.length
          inserted := ((numberRows rows).filter
            (fun p => decide (p.2.length = 3) && decide (¬ (fname, p.1) ∈ store))).length
          status := if ((numberRows rows).filter
              (fun p => decide (p.2.length = 3) && decide (¬ (fname, p.1) ∈ store))).length ≠ 0
            then RawStatus.success
            else if rows.length ≠ 0 then RawStatus.noNewRows else RawStatus.emptyFile } := by
      unfold ingestFile
      rw [if_neg hh2]
    have hrows0 : rows.length = 0 → ((numberRows rows).filter
        (fun p => decide (p.2.length = 3) && decide (¬ (fname, p.1) ∈ store))).length = 0 := by
      intro h0
      rw [List.length_eq_zero.mp h0]
      rfl
    rw [hout]
    dsimp only
    set b := ((numberRows rows).filter
      (fun p => decide (p.2.length = 3) && decide (¬ (fname, p.1) ∈ store))).length with hb
    rcases Nat.eq_zero_or_pos b with hi | hi <;>
      rcases Nat.eq_zero_or_pos rows.length with hr | hr
    · refine ⟨by simp [hi, hr, hh], fun hcontra => absurd hh hcontra, fun _ => ?_⟩
      refine ⟨by simp [hi, hr], by simp [hi, hr], by simp [hi, hr]⟩
    · have hr2 : rows.length ≠ 0 := by omega
      refine ⟨by simp [hi, hr2, hh], fun hcontra => absurd hh hcontra, fun _ => ?_⟩
      refine ⟨by simp [hi, hr2], ?_, by simp [hi, hr2]⟩
      rw [if_neg (by omega : ¬ b ≠ 0), if_pos hr2]
      constructor
      · intro _
        exact ⟨hi, by omega⟩
      · intro _
        rfl
    · exact absurd (hrows0 hr) (by omega)
    · have hi2 : b ≠ 0 := by omega
      have hr2 : rows.length ≠ 0 := by omega
      refine ⟨by simp [hi2, hh], fun hcontra => absurd hh hcontra, fun _ => ?_⟩
      refine ⟨?_, by simp [hi2], by simp [hi2, hr2]⟩
      rw [if_pos hi2]
      constructor
      · intro _
        omega
      · intro _
        rfl
  · have hout : ingestFile fname header rows store = ⟨0, 0, RawStatus.skippedBadHeader⟩ := by
      unfold ingestFile
      rw [if_pos hh]
    rw [hout]
    exact ⟨by simp [hh], fun _ => rfl, fun hcontra => absurd hcontra hh⟩

/-- C8 amended witness: a bad header inserts nothing; a good header
over an empty file is EMPTY_FILE; a fresh well-shaped row is SUCCESS. -/
theorem c8_ingest_status_witness :
    (ingestFile ("f.csv") (some [("x")]) [[("a"), ("b"), ("c")]] []).inserted = 0 ∧
    (ingestFile ("g.csv") (some EXPECTED_HEADER) [] []).status = RawStatus.emptyFile ∧
    (ingestFile ("h.csv") (some EXPECTED_HEADER) [[("a"), ("b"), ("c")]] []).status =
      RawStatus.success := by
  refine ⟨(c8_ingest_status ("f.csv") (some [("x")]) [[("a"), ("b"), ("c")]] []).2.1
      (by decide), ?_, ?_⟩
  · exact ((c8_ingest_status ("g.csv") (some EXPECTED_HEADER) [] []).2.2 rfl).2.2.mpr rfl
  · exact ((c8_ingest_status ("h.csv") (some EXPECTED_HEADER) [[("a"), ("b"), ("c")]] []).2.2
      rfl).1.mpr (by decide)

/-! ## Claim C9: Transformer idempotence -/

/-- C9: when every raw record already has a typed record (empty
anti-join), the Transformer run leaves the typed store unchanged,
raises nothing, does not involve the aggregate (which is not an input
or output of the stage), and appends exactly one ledger entry with
status NO_NEW_ROWS and records count 0. -/
theorem c9_transformer_idempotent (c : Nat) (raw : List RawRow) (silver : List SilverEvent)
    (h : pendingRawRows raw silver = []) :
    run_raw_to_silver c raw silver = Except.ok (silver,
      { layer := ("silver")
        file_name := ("raw.events_raw")
        records := 0
        status := ("NO_NEW_ROWS")
        details := some (("Filas con coercion: ") ++ toString 0) }) := by
  unfold run_raw_to_silver
  rw [rtsLoop]
  simp [h]

/-- C9 witness: one raw row already transformed. -/
theorem c9_transformer_idempotent_witness :
    run_raw_to_silver 5
      [⟨1, ("f.csv"), some ("2024-01-02"), some ("10"), some ("3")⟩]
      [⟨1, ⟨2024, 1, 2⟩, PyDec.finite false 1000 (-2), 3, ("OK"), ("f.csv")⟩] =
    Except.ok ([⟨1, ⟨2024, 1, 2⟩, PyDec.finite false 1000 (-2), 3, ("OK"), ("f.csv")⟩],
      { layer := ("silver")
        file_name := ("raw.events_raw")
        records := 0
        status := ("NO_NEW_ROWS")
        details := some (("Filas con coercion: ") ++ toString 0) }) :=
  c9_transformer_idempotent 5
    [⟨1, ("f.csv"), some ("2024-01-02"), some ("10"), some ("3")⟩]
    [⟨1, ⟨2024, 1, 2⟩, PyDec.finite false 1000 (-2), 3, ("OK"), ("f.csv")⟩] (by decide)

/-! ## Claim C10: the validation.csv substitution in run_load -/

/-- C10: for stage raw/silver/all with an empty exclusion set and the
pattern "*.csv" or "*", run_load silently substitutes the exclusion set
containing exactly validation.csv, so validation.csv is never among the
ingested files; a nonempty exclusion set or any other pattern disables
the substitution. -/
theorem c10_validation_excluded (stage pattern : String) (files : List String)
    (hs : stage = ("raw") ∨ stage = ("silver") ∨ stage = ("all"))
    (hp : pattern = ("*.csv") ∨ pattern = ("*")) :
    effectiveExclude stage pattern [] = [("validation.csv")] ∧
    (∃ fs, run_load_ingested stage pattern [] files = some fs ∧ ¬ ("validation.csv") ∈ fs) ∧
    (∀ excl : List String, excl ≠ [] → effectiveExclude stage pattern excl = excl) ∧
    (∀ (pat : String) (excl : List String), pat ≠ ("*.csv") → pat ≠ ("*") →
      effectiveExclude stage pat excl = excl) := by
  have he : effectiveExclude stage pattern [] = [("validation.csv")] := by
    unfold effectiveExclude
    rw [if_pos ⟨hs, rfl, hp⟩]
  refine ⟨he, ?_, ?_, ?_⟩
  · refine ⟨filesAfterExclude files [("validation.csv")], ?_, ?_⟩
    · unfold run_load_ingested
      rw [if_pos hs, he]
    · unfold filesAfterExclude
      rw [if_neg (by simp)]
      intro hmem
      have := List.of_mem_filter hmem
      simp at this
  · intro excl hne
    unfold effectiveExclude
    rw [if_neg]
    rintro ⟨_, h2, _⟩
    exact hne h2
  · intro pat excl h1 h2
    unfold effectiveExclude
    rw [if_neg]
    rintro ⟨_, _, h3 | h3⟩
    · exact h1 h3
    · exact h2 h3

/-- C10 witness: stage raw with pattern "*": validation.csv is dropped
from the ingested files; a caller-supplied exclusion or a custom
pattern is left alone. -/
theorem c10_validation_excluded_witness :
    (∃ fs, run_load_ingested ("raw") ("*") [] [("a.csv"), ("validation.csv")] = some fs ∧
      ¬ ("validation.csv") ∈ fs) ∧
    effectiveExclude ("raw") ("*") [("keep.csv")] = [("keep.csv")] ∧
    effectiveExclude ("raw") ("data.csv") [] = [] := by
  have h := c10_validation_excluded ("raw") ("*") [("a.csv"), ("validation.csv")]
    (Or.inl rfl) (Or.inr rfl)
  exact ⟨h.2.1, h.2.2.1 [("keep.csv")] (by decide),
    h.2.2.2 ("data.csv") [] (by decide) (by decide)⟩

end PipelinePG
